import Mathlib

/-!
Kosh HD wallet (src/App.js): shallow embedding and verified properties.

The component keeps three pieces of React state, `mnemonic`, `wallets` and
`nextIndex`, and changes them through four handlers: `addWallet`,
`clearWallets`, `regenMnemonic` and the Reveal/Hide toggle.  Each handler is
embedded as a function on `State`; a handler that throws before any setter
runs leaves the state as it was.

The npm packages the file imports (bip39, micro-ed25519-hdkey, tweetnacl,
bs58, @solana/web3.js) are not part of the repository.  The cryptographic
primitives are fields of `Libs`; the two package functions the properties
talk about directly, `bip39.generateMnemonic` and `bs58.encode`/`decode`, are
modelled in full.
-/

namespace Kosh

/-! ## Byte arrays and strings -/

/-- JavaScript `new Uint8Array(xs)`: every element is stored modulo 256. -/
def uint8Array (xs : List Nat) : List Nat := xs.map (fun x => x % 256)

/-- JavaScript `xs.join(sep)` on an array of strings. -/
def jsJoin (sep : String) (xs : List String) : String :=
  String.mk (sep.toList.intercalate (xs.map String.toList))

/-- JavaScript `s.split(" ")`: the parts of `s` between single spaces. -/
def splitSpace (s : String) : List String :=
  (s.toList.splitOn ' ').map String.mk

/-- One lower-case hexadecimal digit. -/
def hexDigit (n : Nat) : Char := "0123456789abcdef".toList.getD n '0'

/-- Node `Buffer.from(bytes).toString("hex")`: two hex digits per byte. -/
def toHex (bytes : List Nat) : String :=
  String.mk ((uint8Array bytes).flatMap (fun b => [hexDigit (b / 16), hexDigit (b % 16)]))

/-! ## bs58 -/

/-- The base-58 alphabet of the bs58 package (the Bitcoin alphabet). -/
def ALPHABET : List Char :=
  "123456789ABCDEFGHJKLMNPQRSTUVWXYZabcdefghijkmnopqrstuvwxyz".toList

/-- Number of zero bytes at the front of a byte array. -/
def leadingZeros (bytes : List Nat) : Nat := (bytes.takeWhile (fun b => b == 0)).length

/-- Big-endian value of a byte array. -/
def bytesToNat (bytes : List Nat) : Nat := Nat.ofDigits 256 bytes.reverse

/-- Modelled from the spec: `bs58.encode` of the bs58 package, which is imported by
App.js and is not under src/.  The spec (4.4) names the encoding: base-58 of
the bytes.  Each leading zero byte becomes the leader character `1`; the
remaining bytes, read as one big-endian number, are written in base 58 with
the alphabet above, most significant digit first. -/
def bs58encode (bytes : List Nat) : String :=
  String.mk (List.replicate (leadingZeros bytes) '1' ++
    ((Nat.digits 58 (bytesToNat bytes)).reverse.map (fun d => ALPHABET.getD d '1')))

/-- Value of a base-58 character, if it belongs to the alphabet. -/
def charValue (c : Char) : Option Nat :=
  let i := ALPHABET.indexOf c
  if i < 58 then some i else none

/-- Modelled from the spec: `bs58.decode` of the bs58 package (not under src/), the
inverse transform the spec's round-trip law (4.4, 8) refers to.  Leading `1`
characters become zero bytes; the remaining characters are read as a base-58
number, written out big-endian in base 256.  A character outside the alphabet
makes decoding fail. -/
def bs58decode (s : String) : Option (List Nat) :=
  let cs := s.toList
  let zeros := (cs.takeWhile (fun c => c == '1')).length
  match (cs.drop zeros).mapM charValue with
  | none => none
  | some ds => some (List.replicate zeros 0 ++ (Nat.digits 256 (Nat.ofDigits 58 ds.reverse)).reverse)

/-! ## bip39.generateMnemonic -/

/-- Primitives the bip39 package relies on: its SHA-256, its default word list
and PBKDF2-based seed stretching. -/
structure Bip39 where
  /-- SHA-256 of a byte array (32 bytes). -/
  sha256 : List Nat → List Nat
  /-- The default (English) word list, 2048 words. -/
  wordlist : List String
  /-- The function `mnemonicToSeedSync(mnemonic)`, with the empty passphrase: a 64-byte seed. -/
  mnemonicToSeedSync : String → List Nat

/-- The 8 bits of a byte, most significant first (`lpad(x.toString(2), '0', 8)`). -/
def byteToBinary (b : Nat) : List Bool :=
  (List.range 8).map (fun k => (b / 2 ^ (7 - k)) % 2 == 1)

/-- bip39 `bytesToBinary`: the bits of a byte array. -/
def bytesToBinary (bytes : List Nat) : List Bool := bytes.flatMap byteToBinary

/-- bip39 `binaryToByte` (`parseInt(bin, 2)`): value of a bit string. -/
def binaryToByte (bits : List Bool) : Nat :=
  bits.foldl (fun acc b => 2 * acc + (if b then 1 else 0)) 0

/-- bip39 `deriveChecksumBits`: the first ENT/32 bits of the SHA-256 of the entropy. -/
def deriveChecksumBits (B : Bip39) (entropy : List Nat) : List Bool :=
  (bytesToBinary (uint8Array (B.sha256 entropy))).take (entropy.length * 8 / 32)

/-- The match of `/(.{1,11})/g`: consecutive groups of 11 bits, the last one
possibly shorter. -/
def chunks11 (bits : List Bool) : List (List Bool) :=
  (List.range ((bits.length + 10) / 11)).map (fun i => (bits.drop (11 * i)).take 11)

/-- bip39 `entropyToMnemonic` with the default word list: rejects entropy
shorter than 16 bytes, longer than 32 bytes or not a multiple of 4 bytes;
otherwise appends the checksum bits, cuts the bit string into 11-bit groups
and joins the words they index with single spaces.  (The package joins with
an ideographic space when the word list is its Japanese one.) -/
def entropyToMnemonic (B : Bip39) (entropy : List Nat) : Except String String :=
  if entropy.length < 16 then .error "Invalid entropy"
  else if entropy.length > 32 then .error "Invalid entropy"
  else if entropy.length % 4 ≠ 0 then .error "Invalid entropy"
  else
    let bits := bytesToBinary entropy ++ deriveChecksumBits B entropy
    let words := (chunks11 bits).map (fun c => B.wordlist.getD (binaryToByte c) "")
    .ok (if B.wordlist.getD 0 "" = "あいこくしん" then jsJoin "　" words else jsJoin " " words)

/-- The system random source behind bip39 `randomBytes(size)`: `size` bytes
taken from the entropy stream `src` of this call. -/
def randomBytes (src : Nat → Nat) (size : Nat) : List Nat :=
  (List.range size).map (fun k => src k % 256)

/-- Model of `bip39.generateMnemonic(strength)` as published in the bip39
package (a dependency of App.js; its code is not under src/): a strength of 0
stands for the default 128, a strength that is not a multiple of 32 is
rejected, and `strength / 8` random bytes go to `entropyToMnemonic`. -/
def generateMnemonic (B : Bip39) (strength : Nat) (src : Nat → Nat) : Except String String :=
  let strength := if strength = 0 then 128 else strength
  if strength % 32 ≠ 0 then .error "Invalid entropy"
  else entropyToMnemonic B (randomBytes src (strength / 8))

/-! ## Key derivation (App.js lines 9-20) -/

/-- A tweetnacl signing key pair. -/
structure NaclKeyPair where
  publicKey : List Nat
  secretKey : List Nat

/-- A `Keypair` of @solana/web3.js, by the bytes of its two keys. -/
structure SolKeypair where
  publicKey : List Nat
  secretKey : List Nat

/-- The packages App.js imports, as far as the component uses them.  A call
that can throw returns `Except`. -/
structure Libs where
  /-- The bip39 package. -/
  bip39 : Bip39
  /-- The expression `HDKey.fromMasterSeed(seedHex).derive(path).privateKey`: the call may
  throw; the derived node may carry no private key. -/
  hdPrivateKey : String → String → Except String (Option (List Nat))
  /-- The function `nacl.sign.keyPair.fromSeed(seed)`. -/
  naclFromSeed : List Nat → Except String NaclKeyPair
  /-- The function `Keypair.fromSecretKey(secretKey)`. -/
  keypairFromSecretKey : List Nat → Except String SolKeypair

/-- What `deriveSolanaKeypairFromSeed` returns. -/
structure DerivedKey where
  path : String
  publicKey : String
  secretKeyBase58 : String
deriving DecidableEq, Repr

/-- Lines 10-14 of `deriveSolanaKeypairFromSeed`: the path and the Solana key
pair, before encoding. -/
def deriveKeypair (L : Libs) (seedHex : String) (index : Nat) : Except String (String × SolKeypair) :=
  let path := "m/44'/501'/" ++ toString index ++ "'/0'"
  match L.hdPrivateKey seedHex path with
  | .error e => .error e
  | .ok none => .error "No child private key"
  | .ok (some privateKey) =>
    match L.naclFromSeed (uint8Array privateKey) with
    | .error e => .error e
    | .ok kp =>
      match L.keypairFromSecretKey (uint8Array kp.secretKey) with
      | .error e => .error e
      | .ok solKp => .ok (path, solKp)

/-- The bytes `solKp.publicKey.toBase58()` encodes (`PublicKey.toBytes`). -/
def publicKeyBytes (k : SolKeypair) : List Nat := uint8Array k.publicKey

/-- The bytes read by `solKp.secretKey` (a fresh `Uint8Array` copy). -/
def secretKeyBytes (k : SolKeypair) : List Nat := uint8Array k.secretKey

/-- The function `deriveSolanaKeypairFromSeed(seedHex, index)`. -/
def deriveSolanaKeypairFromSeed (L : Libs) (seedHex : String) (index : Nat) :
    Except String DerivedKey :=
  match deriveKeypair L seedHex index with
  | .error e => .error e
  | .ok (path, solKp) =>
    .ok { path := path
          publicKey := bs58encode (publicKeyBytes solKp)
          secretKeyBase58 := bs58encode (secretKeyBytes solKp) }

/-! ## Component state and handlers (App.js lines 22-47, 87-121) -/

/-- An element of the `wallets` array. -/
structure Wallet where
  path : String
  publicKey : String
  secretKeyBase58 : String
  index : Nat
  revealed : Bool
deriving DecidableEq, Repr

/-- The three `useState` cells of `App`. -/
structure State where
  mnemonic : String
  wallets : List Wallet
  nextIndex : Nat
deriving DecidableEq, Repr

/-- The memoised `seedHex` of the current mnemonic. -/
def seedHex (L : Libs) (mnemonic : String) : String :=
  toHex (L.bip39.mnemonicToSeedSync mnemonic)

/-- The spread `{ ...w, index: nextIndex, revealed: false }`. -/
def mkWallet (w : DerivedKey) (index : Nat) : Wallet :=
  { path := w.path, publicKey := w.publicKey, secretKeyBase58 := w.secretKeyBase58,
    index := index, revealed := false }

/-- The handler `addWallet()`: derive first, then append and advance the counter. -/
def addWallet (L : Libs) (s : State) : Except String State :=
  match deriveSolanaKeypairFromSeed L (seedHex L s.mnemonic) s.nextIndex with
  | .error e => .error e
  | .ok w =>
    .ok { mnemonic := s.mnemonic
          wallets := s.wallets ++ [mkWallet w s.nextIndex]
          nextIndex := s.nextIndex + 1 }

/-- The handler `clearWallets()`. -/
def clearWallets (s : State) : State :=
  { mnemonic := s.mnemonic, wallets := [], nextIndex := 0 }

/-- The handler `regenMnemonic(bits = 128)`: `none` is a call without argument.  The
generator runs first; the setters run only if it returned. -/
def regenMnemonic (L : Libs) (bits : Option Nat) (src : Nat → Nat) (_s : State) :
    Except String State :=
  match generateMnemonic L.bip39 (bits.getD 128) src with
  | .error e => .error e
  | .ok m => .ok { mnemonic := m, wallets := [], nextIndex := 0 }

/-- The Reveal/Hide handler of the wallet card whose wallet has index `i`. -/
def toggleReveal (s : State) (i : Nat) : State :=
  { mnemonic := s.mnemonic
    wallets := s.wallets.map (fun x => if x.index = i then { x with revealed := !x.revealed } else x)
    nextIndex := s.nextIndex }

/-- State after a handler ran: what it set, or the prior state if it threw. -/
def commit (s : State) : Except String State → State
  | .ok s' => s'
  | .error _ => s

/-- A user action; `regenMnemonic` carries the entropy the random source gives. -/
inductive Action where
  | addWallet
  | clearWallets
  | regenMnemonic (bits : Option Nat) (src : Nat → Nat)
  | toggleReveal (i : Nat)

/-- One user action as one atomic step. -/
def step (L : Libs) (s : State) : Action → State
  | .addWallet => commit s (addWallet L s)
  | .clearWallets => clearWallets s
  | .regenMnemonic bits src => commit s (regenMnemonic L bits src s)
  | .toggleReveal i => toggleReveal s i

/-- The state after a finite sequence of actions. -/
def run (L : Libs) (s : State) (as : List Action) : State := as.foldl (step L) s

/-- The state of a freshly mounted component showing mnemonic `m`. -/
def initial (m : String) : State := { mnemonic := m, wallets := [], nextIndex := 0 }

/-- The first render: `useState(bip39.generateMnemonic(128))`. -/
def mount (L : Libs) (src : Nat → Nat) : Except String State :=
  match generateMnemonic L.bip39 128 src with
  | .error e => .error e
  | .ok m => .ok (initial m)

/-- States reachable from a fresh component by user actions. -/
inductive Reachable (L : Libs) : State → Prop where
  | init (m : String) : Reachable L (initial m)
  | next {s : State} (a : Action) : Reachable L s → Reachable L (step L s a)

/-! ## Rendering of the private key (App.js lines 107-121) -/

/-- The placeholder shown for a hidden private key. -/
def mask : String := "•••••••••••••••••••••••••••••••••••••••••"

/-- Text rendered in the private-key box of a wallet card. -/
def renderPrivateKey (w : Wallet) : String :=
  if w.revealed then w.secretKeyBase58 else mask

/-- The Copy button of the private key,
`w.revealed && navigator.clipboard.writeText(w.secretKeyBase58)`: the text handed
to the clipboard, if any. -/
def copySecret (w : Wallet) : Option String :=
  if w.revealed then some w.secretKeyBase58 else none

/-- The words the component renders: `mnemonic.split(" ")`. -/
def mnemonicWords (s : State) : List String := splitSpace s.mnemonic

/-! ## The registry invariant and sample libraries -/

/-- The registry invariant: indices are `0..n-1` in list order and the counter is `n`. -/
def Inv (s : State) : Prop :=
  s.wallets.map Wallet.index = List.range s.wallets.length ∧ s.nextIndex = s.wallets.length

/-- The strength `generateMnemonic` works with: 0 stands for the default 128. -/
def effectiveStrength (bits : Option Nat) : Nat :=
  if bits.getD 128 = 0 then 128 else bits.getD 128

/-- A stand-in for the bip39 primitives: an all-zero digest and a word list
that starts like the English one. -/
def sampleBip39 : Bip39 :=
  { sha256 := fun _ => List.replicate 32 0
    wordlist := ["abandon", "ability", "able", "about", "above", "absent", "absorb", "abstract"]
    mnemonicToSeedSync := fun _ => List.replicate 64 7 }

/-- Sample libraries under which every derivation succeeds. -/
def sampleLibs : Libs :=
  { bip39 := sampleBip39
    hdPrivateKey := fun _ _ => .ok (some (List.replicate 32 1))
    naclFromSeed := fun seed =>
      .ok { publicKey := List.replicate 32 2, secretKey := seed ++ List.replicate 32 2 }
    keypairFromSecretKey := fun sk => .ok { publicKey := sk.drop 32, secretKey := sk } }

/-- Sample libraries whose derived node carries no private key. -/
def noKeyLibs : Libs :=
  { bip39 := sampleBip39
    hdPrivateKey := fun _ _ => .ok none
    naclFromSeed := sampleLibs.naclFromSeed
    keypairFromSecretKey := sampleLibs.keypairFromSecretKey }

/-- A fresh registry on a sample mnemonic. -/
def sampleFresh : State := initial "abandon ability able about"

/-- The sample registry after two wallets were added, one was revealed and
the list was cleared. -/
def sampleCleared : State :=
  run sampleLibs sampleFresh
    [Action.addWallet, Action.addWallet, Action.toggleReveal 1, Action.clearWallets]

/-- The sample registry after two wallets were added. -/
def sampleTwo : State := run sampleLibs sampleFresh [Action.addWallet, Action.addWallet]

/-- The sample registry with two wallets, the second one revealed. -/
def sampleRevealed : State := toggleReveal sampleTwo 1

/-- The sample registry after another history: a wallet added and revealed,
the list cleared, then three wallets added and the first one revealed. -/
def sampleOther : State :=
  run sampleLibs sampleFresh
    [Action.addWallet, Action.toggleReveal 0, Action.clearWallets, Action.addWallet,
     Action.addWallet, Action.addWallet, Action.toggleReveal 0]

/-- Every stored wallet carries what derivation gives for the current
mnemonic and the wallet's position in the list. -/
def KeyInv (L : Libs) (s : State) : Prop :=
  ∀ j w, s.wallets[j]? = some w →
    ∃ d, deriveSolanaKeypairFromSeed L (seedHex L s.mnemonic) j = .ok d ∧
      w.index = j ∧ w.path = d.path ∧ w.publicKey = d.publicKey ∧
      w.secretKeyBase58 = d.secretKeyBase58

/-! ## Shared lemmas -/

theorem inv_initial (m : String) : Inv (initial m) := by
  simp [Inv, initial]

theorem toggleReveal_map_index (s : State) (i : Nat) :
    (toggleReveal s i).wallets.map Wallet.index = s.wallets.map Wallet.index := by
  simp only [toggleReveal, List.map_map]
  apply List.map_congr_left
  intro x _
  by_cases hx : x.index = i <;> simp [hx]

theorem inv_step (L : Libs) (s : State) (a : Action) (h : Inv s) : Inv (step L s a) := by
  obtain ⟨h1, h2⟩ := h
  cases a with
  | addWallet =>
    simp only [step, addWallet]
    cases deriveSolanaKeypairFromSeed L (seedHex L s.mnemonic) s.nextIndex with
    | error e => exact ⟨h1, h2⟩
    | ok w =>
      simp only [commit, Inv, List.map_append, List.length_append, List.map_cons, List.map_nil,
        List.length_singleton, h1, List.range_succ, mkWallet, h2]
      simp
  | clearWallets => simp [step, clearWallets, Inv]
  | regenMnemonic bits src =>
    simp only [step, regenMnemonic]
    cases generateMnemonic L.bip39 (bits.getD 128) src with
    | error e => exact ⟨h1, h2⟩
    | ok m => simp [commit, Inv]
  | toggleReveal i =>
    refine ⟨?_, ?_⟩
    · rw [step, toggleReveal_map_index, h1]
      simp [toggleReveal]
    · simp [step, toggleReveal, h2]

theorem inv_of_reachable (L : Libs) (s : State) (h : Reachable L s) : Inv s := by
  induction h with
  | init m => exact inv_initial m
  | next a _ ih => exact inv_step L _ a ih

theorem run_snoc (L : Libs) (s : State) (as : List Action) (a : Action) :
    run L s (as ++ [a]) = step L (run L s as) a := by
  simp [run, List.foldl_append]

theorem reachable_run (L : Libs) (s : State) (as : List Action) (h : Reachable L s) :
    Reachable L (run L s as) := by
  induction as generalizing s with
  | nil => exact h
  | cons a as ih => exact ih _ (Reachable.next a h)

/-- After `k` successful `addWallet` calls on a fresh registry the mnemonic is
the same, and both the number of wallets and the counter are `k`. -/
theorem run_adds (L : Libs) (m : String) (k : Nat)
    (hok : ∀ i, i < k → ∃ w, deriveSolanaKeypairFromSeed L (seedHex L m) i = .ok w) :
    (run L (initial m) (List.replicate k Action.addWallet)).mnemonic = m ∧
    (run L (initial m) (List.replicate k Action.addWallet)).wallets.length = k ∧
    (run L (initial m) (List.replicate k Action.addWallet)).nextIndex = k := by
  induction k with
  | zero => simp [run, initial]
  | succ k ih =>
    obtain ⟨hm, hl, hn⟩ := ih (fun i hi => hok i (Nat.lt_succ_of_lt hi))
    obtain ⟨w, hw⟩ := hok k (Nat.lt_succ_self k)
    rw [List.replicate_succ', run_snoc]
    generalize run L (initial m) (List.replicate k Action.addWallet) = t at hm hl hn
    simp only [step, addWallet, hm, hn, hw, commit, List.length_append, hl,
      List.length_singleton, and_self]


theorem deriveKeypair_ok (L : Libs) (seed : String) (i : Nat) (p : String) (k : SolKeypair)
    (h : deriveKeypair L seed i = .ok (p, k)) :
    p = "m/44'/501'/" ++ Nat.repr i ++ "'/0'" ∧
    ∃ privateKey kp, L.hdPrivateKey seed p = .ok (some privateKey) ∧
      L.naclFromSeed (uint8Array privateKey) = .ok kp ∧
      L.keypairFromSecretKey (uint8Array kp.secretKey) = .ok k := by
  simp only [deriveKeypair] at h
  split at h
  · cases h
  · cases h
  · rename_i privateKey h1
    split at h
    · cases h
    · rename_i kp h2
      split at h
      · cases h
      · rename_i solKp h3
        cases h
        exact ⟨rfl, privateKey, kp, h1, h2, h3⟩

theorem derive_ok (L : Libs) (seed : String) (i : Nat) (w : DerivedKey)
    (h : deriveSolanaKeypairFromSeed L seed i = .ok w) :
    ∃ p k, deriveKeypair L seed i = .ok (p, k) ∧
      w = { path := p, publicKey := bs58encode (publicKeyBytes k),
            secretKeyBase58 := bs58encode (secretKeyBytes k) } := by
  unfold deriveSolanaKeypairFromSeed at h
  split at h
  · cases h
  · rename_i p k hk
    cases h
    exact ⟨p, k, hk, rfl⟩

theorem derive_path (L : Libs) (seed : String) (i : Nat) (w : DerivedKey)
    (h : deriveSolanaKeypairFromSeed L seed i = .ok w) :
    w.path = "m/44'/501'/" ++ Nat.repr i ++ "'/0'" := by
  obtain ⟨p, k, hk, rfl⟩ := derive_ok L seed i w h
  exact (deriveKeypair_ok L seed i p k hk).1

theorem addWallet_ok (L : Libs) (s s' : State) (h : addWallet L s = .ok s') :
    ∃ w, deriveSolanaKeypairFromSeed L (seedHex L s.mnemonic) s.nextIndex = .ok w ∧
      s' = { mnemonic := s.mnemonic, wallets := s.wallets ++ [mkWallet w s.nextIndex],
             nextIndex := s.nextIndex + 1 } := by
  unfold addWallet at h
  split at h
  · cases h
  · rename_i w hw
    cases h
    exact ⟨w, hw, rfl⟩

theorem toggleReveal_getElem? (s : State) (i j : Nat) :
    (toggleReveal s i).wallets[j]? =
      (s.wallets[j]?).map (fun x => if x.index = i then { x with revealed := !x.revealed } else x) := by
  simp [toggleReveal]

/-- Under the invariant, the wallet at position `j` has index `j`. -/
theorem inv_index_at (s : State) (h : Inv s) (j : Nat) (w : Wallet)
    (hw : s.wallets[j]? = some w) : w.index = j := by
  have h1 : (s.wallets.map Wallet.index)[j]? = some w.index := by
    simp [hw]
  rw [h.1] at h1
  have hj : j < s.wallets.length := by
    by_contra hc
    rw [List.getElem?_eq_none (Nat.le_of_not_lt hc)] at hw
    cases hw
  rw [List.getElem?_range hj] at h1
  cases h1
  rfl

theorem toggleReveal_absent (s : State) (i : Nat) (h : ∀ w ∈ s.wallets, w.index ≠ i) :
    toggleReveal s i = s := by
  have : s.wallets.map
      (fun x => if x.index = i then { x with revealed := !x.revealed } else x) = s.wallets := by
    conv_rhs => rw [← List.map_id s.wallets]
    apply List.map_congr_left
    intro x hx
    simp [h x hx]
  cases s
  simp only [toggleReveal] at this ⊢
  rw [this]

theorem randomBytes_length (src : Nat → Nat) (size : Nat) :
    (randomBytes src size).length = size := by
  simp [randomBytes]

theorem entropyToMnemonic_error (B : Bip39) (entropy : List Nat)
    (h : ¬ (16 ≤ entropy.length ∧ entropy.length ≤ 32 ∧ entropy.length % 4 = 0)) :
    entropyToMnemonic B entropy = .error "Invalid entropy" := by
  unfold entropyToMnemonic
  split
  · rfl
  · split
    · rfl
    · split
      · rfl
      · exfalso
        apply h
        omega

theorem entropyToMnemonic_ok (B : Bip39) (entropy : List Nat)
    (h : 16 ≤ entropy.length ∧ entropy.length ≤ 32 ∧ entropy.length % 4 = 0) :
    entropyToMnemonic B entropy = .ok
      (if B.wordlist.getD 0 "" = "あいこくしん"
       then jsJoin "　" ((chunks11 (bytesToBinary entropy ++ deriveChecksumBits B entropy)).map
         (fun c => B.wordlist.getD (binaryToByte c) ""))
       else jsJoin " " ((chunks11 (bytesToBinary entropy ++ deriveChecksumBits B entropy)).map
         (fun c => B.wordlist.getD (binaryToByte c) ""))) := by
  obtain ⟨h1, h2, h3⟩ := h
  unfold entropyToMnemonic
  rw [if_neg (by omega), if_neg (by omega), if_neg (by omega)]

/-- The strengths `generateMnemonic` accepts. -/
theorem generateMnemonic_ok_iff (B : Bip39) (bits : Option Nat) (src : Nat → Nat) :
    (∃ m, generateMnemonic B (bits.getD 128) src = .ok m) ↔
      (effectiveStrength bits % 32 = 0 ∧ 128 ≤ effectiveStrength bits ∧
        effectiveStrength bits ≤ 256) := by
  unfold generateMnemonic effectiveStrength
  generalize (if bits.getD 128 = 0 then 128 else bits.getD 128) = n
  simp only []
  by_cases h32 : n % 32 = 0
  · rw [if_neg (by omega)]
    by_cases hr : 128 ≤ n ∧ n ≤ 256
    · rw [entropyToMnemonic_ok B _ (by rw [randomBytes_length]; omega)]
      exact ⟨fun _ => ⟨h32, hr.1, hr.2⟩, fun _ => ⟨_, rfl⟩⟩
    · rw [entropyToMnemonic_error B _ (by rw [randomBytes_length]; omega)]
      constructor
      · rintro ⟨m, hm⟩
        cases hm
      · rintro ⟨_, h1, h2⟩
        exact absurd ⟨h1, h2⟩ hr
  · rw [if_pos h32]
    constructor
    · rintro ⟨m, hm⟩
      cases hm
    · rintro ⟨h, _⟩
      exact absurd h h32

theorem generateMnemonic_error (B : Bip39) (bits : Option Nat) (src : Nat → Nat)
    (h : ¬ (effectiveStrength bits % 32 = 0 ∧ 128 ≤ effectiveStrength bits ∧
        effectiveStrength bits ≤ 256)) :
    generateMnemonic B (bits.getD 128) src = .error "Invalid entropy" := by
  unfold generateMnemonic
  unfold effectiveStrength at h
  generalize (if bits.getD 128 = 0 then 128 else bits.getD 128) = n at h
  simp only []
  by_cases h32 : n % 32 = 0
  · rw [if_neg (by omega)]
    exact entropyToMnemonic_error B _ (by rw [randomBytes_length]; omega)
  · rw [if_pos h32]

theorem splitSpace_jsJoin (words : List String) (hne : words ≠ [])
    (hsp : ∀ w ∈ words, ' ' ∉ w.toList) : splitSpace (jsJoin " " words) = words := by
  unfold splitSpace jsJoin
  have h1 : (" " : String).toList = [' '] := rfl
  have h2 : (String.mk ([' '].intercalate (words.map String.toList))).toList
      = [' '].intercalate (words.map String.toList) := rfl
  rw [h1, h2, List.splitOn_intercalate]
  · rw [List.map_map]
    conv_rhs => rw [← List.map_id words]
    apply List.map_congr_left
    intro w _
    rfl
  · intro l hl
    obtain ⟨w, hw, rfl⟩ := List.mem_map.1 hl
    exact hsp w hw
  · intro h
    exact hne (List.map_eq_nil_iff.1 h)

theorem byteToBinary_length (b : Nat) : (byteToBinary b).length = 8 := by
  simp [byteToBinary]

theorem bytesToBinary_length (bytes : List Nat) :
    (bytesToBinary bytes).length = 8 * bytes.length := by
  induction bytes with
  | nil => rfl
  | cons b bs ih =>
    have : bytesToBinary (b :: bs) = byteToBinary b ++ bytesToBinary bs := by
      simp [bytesToBinary]
    rw [this, List.length_append, byteToBinary_length, ih, List.length_cons]
    omega

theorem chunks11_length (bits : List Bool) : (chunks11 bits).length = (bits.length + 10) / 11 := by
  simp [chunks11]

theorem deriveChecksumBits_length (B : Bip39) (entropy : List Nat)
    (hsha : (B.sha256 entropy).length = 32) (hlen : entropy.length ≤ 32) :
    (deriveChecksumBits B entropy).length = entropy.length * 8 / 32 := by
  unfold deriveChecksumBits
  rw [List.length_take, bytesToBinary_length]
  simp only [uint8Array, List.length_map, hsha]
  omega

/-- Word count of a generated mnemonic, for each accepted strength. -/
theorem generateMnemonic_words (B : Bip39) (n : Nat) (src : Nat → Nat)
    (hsha : ∀ e, (B.sha256 e).length = 32)
    (hsp : ∀ w ∈ B.wordlist, ' ' ∉ w.toList)
    (hen : B.wordlist.getD 0 "" ≠ "あいこくしん")
    (h32 : n % 32 = 0) (hlo : 128 ≤ n) (hhi : n ≤ 256) :
    ∃ m, generateMnemonic B n src = .ok m ∧ (splitSpace m).length = n / 32 * 3 := by
  unfold generateMnemonic
  have hn0 : n ≠ 0 := by omega
  simp only [hn0, if_false]
  rw [if_neg (by omega)]
  have hlen : (randomBytes src (n / 8)).length = n / 8 := randomBytes_length src (n / 8)
  rw [entropyToMnemonic_ok B _ (by rw [hlen]; omega), if_neg hen]
  refine ⟨_, rfl, ?_⟩
  have hcount : (chunks11 (bytesToBinary (randomBytes src (n / 8)) ++
      deriveChecksumBits B (randomBytes src (n / 8)))).length = n / 32 * 3 := by
    rw [chunks11_length, List.length_append, bytesToBinary_length,
      deriveChecksumBits_length B _ (hsha _) (by rw [hlen]; omega), hlen]
    omega
  rw [splitSpace_jsJoin]
  · rw [List.length_map, hcount]
  · intro h
    have := congrArg List.length h
    rw [List.length_map, hcount] at this
    simp at this
    omega
  · intro w hw
    obtain ⟨c, _, rfl⟩ := List.mem_map.1 hw
    rw [List.getD_eq_getElem?_getD]
    cases hget : B.wordlist[binaryToByte c]? with
    | none => simp
    | some x =>
      simp only [Option.getD_some]
      exact hsp x (List.getElem?_mem hget)

/-! ### Base 58 -/

theorem alphabet_value : ∀ d, d < 58 → charValue (ALPHABET.getD d '1') = some d := by
  decide

theorem alphabet_leader : ∀ d, d < 58 → d ≠ 0 → (ALPHABET.getD d '1' == '1') = false := by
  decide

theorem mapM_charValue (ds : List Nat) (h : ∀ d ∈ ds, d < 58) :
    (ds.map (fun d => ALPHABET.getD d '1')).mapM charValue = some ds := by
  induction ds with
  | nil => rfl
  | cons d ds ih =>
    have hd := alphabet_value d (h d (List.mem_cons_self d ds))
    have ht := ih (fun x hx => h x (List.mem_cons_of_mem d hx))
    simp only [List.map_cons, List.mapM_cons, hd, ht]
    rfl

theorem takeWhile_replicate_append {α : Type} (p : α → Bool) (a : α) (z : Nat) (l : List α)
    (ha : p a = true) (hl : ∀ x, l.head? = some x → p x = false) :
    (List.replicate z a ++ l).takeWhile p = List.replicate z a := by
  induction z with
  | zero =>
    cases l with
    | nil => rfl
    | cons x xs => simp [List.takeWhile_cons, hl x rfl]
  | succ z ih =>
    simp [List.replicate_succ, List.takeWhile_cons, ha, ih]

theorem ofDigits_replicate_zero (b z : Nat) : Nat.ofDigits b (List.replicate z 0) = 0 := by
  induction z with
  | zero => rfl
  | succ z ih => simp [List.replicate_succ, Nat.ofDigits_cons, ih]

/-- A byte array is its run of leading zeros followed by a part that does not
start with zero. -/
theorem bytes_split (bytes : List Nat) :
    bytes = List.replicate (leadingZeros bytes) 0 ++ bytes.dropWhile (fun b => b == 0) ∧
    ∀ x, (bytes.dropWhile (fun b => b == 0)).head? = some x → x ≠ 0 := by
  constructor
  · have h := (List.takeWhile_append_dropWhile (fun b => b == 0) bytes).symm
    have ht : bytes.takeWhile (fun b => b == 0) = List.replicate (leadingZeros bytes) 0 := by
      apply List.eq_replicate_iff.2
      refine ⟨rfl, fun x hx => ?_⟩
      have := List.mem_takeWhile_imp hx
      simpa using this
    rw [ht] at h
    exact h
  · intro x hx h0
    have := List.head?_dropWhile_not (fun b => b == 0) bytes
    rw [hx] at this
    simp [h0] at this

theorem bytesToNat_split (z : Nat) (rest : List Nat) :
    bytesToNat (List.replicate z 0 ++ rest) = Nat.ofDigits 256 rest.reverse := by
  unfold bytesToNat
  rw [List.reverse_append, Nat.ofDigits_append, List.reverse_replicate, ofDigits_replicate_zero]
  simp

theorem digits_bytes (rest : List Nat) (hb : ∀ b ∈ rest, b < 256)
    (hh : ∀ x, rest.head? = some x → x ≠ 0) :
    Nat.digits 256 (Nat.ofDigits 256 rest.reverse) = rest.reverse := by
  apply Nat.digits_ofDigits 256 (by decide)
  · intro l hl
    exact hb l (List.mem_reverse.1 hl)
  · intro hne
    rw [List.getLast_reverse]
    apply hh
    cases rest with
    | nil => simp at hne
    | cons x xs => simp

/-- Decoding inverts encoding on byte arrays. -/
theorem bs58_decode_encode (bytes : List Nat) (hb : ∀ b ∈ bytes, b < 256) :
    bs58decode (bs58encode bytes) = some bytes := by
  obtain ⟨hsplit, hhead⟩ := bytes_split bytes
  set z := leadingZeros bytes with hz
  set rest := bytes.dropWhile (fun b => b == 0) with hrest
  have hbr : ∀ b ∈ rest, b < 256 := fun b hbm =>
    hb b (by rw [hsplit]; exact List.mem_append_right _ hbm)
  have hN : bytesToNat bytes = Nat.ofDigits 256 rest.reverse := by
    conv_lhs => rw [hsplit]
    exact bytesToNat_split z rest
  set N := bytesToNat bytes with hNdef
  set ds := Nat.digits 58 N with hds
  have hlt : ∀ d ∈ ds.reverse, d < 58 := fun d hd =>
    Nat.digits_lt_base (by decide) (List.mem_reverse.1 hd)
  have hE : ∀ c, (ds.reverse.map (fun d => ALPHABET.getD d '1')).head? = some c →
      (c == '1') = false := by
    intro c hc
    cases hr : ds.reverse with
    | nil => rw [hr] at hc; cases hc
    | cons d rs =>
      rw [hr] at hc
      simp only [List.map_cons, List.head?_cons, Option.some.injEq] at hc
      subst hc
      have hdm : d ∈ ds.reverse := by rw [hr]; exact List.mem_cons_self d rs
      apply alphabet_leader d (hlt d hdm)
      have hne : ds ≠ [] := by
        intro h
        rw [h] at hr
        cases hr
      have hlast : ds.getLast hne = d := by
        have := List.head?_reverse ds
        rw [hr, List.head?_cons, List.getLast?_eq_getLast ds hne] at this
        exact (Option.some.inj this).symm
      rw [← hlast]
      have hN0 : N ≠ 0 := by
        intro h0
        apply hne
        rw [hds, h0]
        exact Nat.digits_zero 58
      exact Nat.getLast_digit_ne_zero 58 hN0
  unfold bs58decode bs58encode
  simp only [String.toList]
  rw [takeWhile_replicate_append (fun c => c == '1') '1' z _ (by decide) hE]
  simp only [List.length_replicate, List.drop_left']
  rw [mapM_charValue ds.reverse hlt]
  simp only [List.reverse_reverse]
  rw [Nat.ofDigits_digits, hN, digits_bytes rest hbr hhead, List.reverse_reverse]
  exact congrArg some hsplit.symm

theorem uint8Array_lt (xs : List Nat) : ∀ b ∈ uint8Array xs, b < 256 := by
  intro b hb
  obtain ⟨x, _, rfl⟩ := List.mem_map.1 hb
  exact Nat.mod_lt x (by decide)
/-! ### Stored keys -/

theorem keyInv_initial (L : Libs) (m : String) : KeyInv L (initial m) := by
  intro j w hw
  simp [initial] at hw

theorem keyInv_step (L : Libs) (s : State) (a : Action) (hinv : Inv s) (h : KeyInv L s) :
    KeyInv L (step L s a) := by
  cases a with
  | addWallet =>
    simp only [step, addWallet]
    cases hd : deriveSolanaKeypairFromSeed L (seedHex L s.mnemonic) s.nextIndex with
    | error e => exact h
    | ok d =>
      intro j w hw
      simp only [commit] at hw ⊢
      by_cases hj : j < s.wallets.length
      · rw [List.getElem?_append_left hj] at hw
        exact h j w hw
      · have hge : s.wallets.length ≤ j := Nat.le_of_not_lt hj
        rw [List.getElem?_append_right hge] at hw
        have hj0 : j - s.wallets.length = 0 := by
          by_contra hne
          rw [List.getElem?_eq_none (by simp; omega)] at hw
          cases hw
        rw [hj0] at hw
        simp only [List.getElem?_cons_zero, Option.some.injEq] at hw
        have hjn : j = s.nextIndex := by rw [hinv.2]; omega
        subst hw
        rw [hjn]
        exact ⟨d, hd, rfl, rfl, rfl, rfl⟩
  | clearWallets =>
    intro j w hw
    simp [step, clearWallets] at hw
  | regenMnemonic bits src =>
    simp only [step, regenMnemonic]
    cases generateMnemonic L.bip39 (bits.getD 128) src with
    | error e => exact h
    | ok m =>
      intro j w hw
      simp [commit] at hw
  | toggleReveal i =>
    intro j w hw
    rw [step, toggleReveal_getElem?] at hw
    cases hx : s.wallets[j]? with
    | none => rw [hx] at hw; cases hw
    | some x =>
      rw [hx] at hw
      simp only [Option.map_some', Option.some.injEq] at hw
      obtain ⟨d, hd, h1, h2, h3, h4⟩ := h j x hx
      refine ⟨d, hd, ?_⟩
      by_cases hxi : x.index = i
      · rw [if_pos hxi] at hw
        subst hw
        exact ⟨h1, h2, h3, h4⟩
      · rw [if_neg hxi] at hw
        subst hw
        exact ⟨h1, h2, h3, h4⟩

theorem keyInv_of_reachable (L : Libs) (s : State) (h : Reachable L s) : KeyInv L s := by
  induction h with
  | init m => exact keyInv_initial L m
  | next a hs ih => exact keyInv_step L _ a (inv_of_reachable L _ hs) ih

/-! ## Registry invariant -/

/-- C1: in every state reachable from a fresh registry (wallets = [], nextIndex = 0)
by any finite sequence of `addWallet`, `clearWallets`, `regenMnemonic(bits)` and
`toggleReveal(i)` steps, the wallet list of length `n` has indices
`0, 1, ..., n-1` in list order (no gaps, no reuse) and `nextIndex = n`; and
after `k` consecutive `addWallet` calls on a fresh registry, each of whose
derivations returns, the list holds exactly `k` wallets with indices
`0..k-1` in that order. -/
theorem registry_indices_sequential (L : Libs) :
    (∀ s, Reachable L s →
      s.wallets.map Wallet.index = List.range s.wallets.length ∧
      (s.wallets.map Wallet.index).Nodup ∧
      s.nextIndex = s.wallets.length) ∧
    (∀ m (as : List Action),
      (run L (initial m) as).wallets.map Wallet.index
        = List.range (run L (initial m) as).wallets.length ∧
      (run L (initial m) as).nextIndex = (run L (initial m) as).wallets.length) ∧
    (∀ m k, (∀ i, i < k → ∃ w, deriveSolanaKeypairFromSeed L (seedHex L m) i = .ok w) →
      (run L (initial m) (List.replicate k Action.addWallet)).wallets.length = k ∧
      (run L (initial m) (List.replicate k Action.addWallet)).wallets.map Wallet.index
        = List.range k ∧
      (run L (initial m) (List.replicate k Action.addWallet)).nextIndex = k) := by
  refine ⟨fun s hs => ?_, fun m as => ?_, fun m k hok => ?_⟩
  · have hinv := inv_of_reachable L s hs
    refine ⟨hinv.1, ?_, hinv.2⟩
    rw [hinv.1]
    exact List.nodup_range _
  · exact inv_of_reachable L _ (reachable_run L (initial m) as (Reachable.init m))
  · obtain ⟨_, hl, hn⟩ := run_adds L m k hok
    have hinv := inv_of_reachable L _
      (reachable_run L (initial m) (List.replicate k Action.addWallet) (Reachable.init m))
    refine ⟨hl, ?_, hn⟩
    rw [hinv.1, hl]

theorem registry_indices_sequential_witness :
    Reachable sampleLibs sampleCleared ∧
    (sampleCleared.wallets.map Wallet.index = List.range sampleCleared.wallets.length ∧
      (sampleCleared.wallets.map Wallet.index).Nodup ∧
      sampleCleared.nextIndex = sampleCleared.wallets.length) ∧
    (∀ i, i < 3 →
      ∃ w, deriveSolanaKeypairFromSeed sampleLibs (seedHex sampleLibs "abandon ability") i
        = .ok w) ∧
    (run sampleLibs (initial "abandon ability")
      (List.replicate 3 Action.addWallet)).wallets.map Wallet.index = List.range 3 :=
  ⟨reachable_run _ _ _ (Reachable.init _),
   (registry_indices_sequential sampleLibs).1 _ (reachable_run _ _ _ (Reachable.init _)),
   fun _ _ => ⟨_, rfl⟩,
   ((registry_indices_sequential sampleLibs).2.2 "abandon ability" 3
      (fun _ _ => ⟨_, rfl⟩)).2.1⟩

/-! ## Derivation path -/

/-- C2: whenever `deriveSolanaKeypairFromSeed` returns for a seed and an index
`i`, the path it returns is `m/44'/501'/` followed by the decimal digits of `i`
and `'/0'`; so the first `addWallet` on a fresh registry yields path
`m/44'/501'/0'/0'`, the second `m/44'/501'/1'/0'`, and the first `addWallet`
after `clearWallets` yields `m/44'/501'/0'/0'` again. -/
theorem derivation_path (L : Libs) :
    (∀ seed i w, deriveSolanaKeypairFromSeed L seed i = .ok w →
      w.path = "m/44'/501'/" ++ Nat.repr i ++ "'/0'") ∧
    (∀ m s1 s2 s3, addWallet L (initial m) = .ok s1 → addWallet L s1 = .ok s2 →
      addWallet L (clearWallets s2) = .ok s3 →
      s1.wallets.map Wallet.path = ["m/44'/501'/0'/0'"] ∧
      s2.wallets.map Wallet.path = ["m/44'/501'/0'/0'", "m/44'/501'/1'/0'"] ∧
      s3.wallets.map Wallet.path = ["m/44'/501'/0'/0'"]) := by
  refine ⟨fun seed i w h => derive_path L seed i w h, ?_⟩
  intro m s1 s2 s3 h1 h2 h3
  obtain ⟨w1, hw1, rfl⟩ := addWallet_ok L _ _ h1
  obtain ⟨w2, hw2, rfl⟩ := addWallet_ok L _ _ h2
  obtain ⟨w3, hw3, rfl⟩ := addWallet_ok L _ _ h3
  have p1 := derive_path L _ _ _ hw1
  have p2 := derive_path L _ _ _ hw2
  have p3 := derive_path L _ _ _ hw3
  simp only [initial, clearWallets] at p1 p2 p3
  simp only [initial, clearWallets, List.nil_append, List.map_cons, List.map_nil, mkWallet,
    List.cons_append, p1, p2, p3]
  decide

theorem derivation_path_witness :
    (∃ w, deriveSolanaKeypairFromSeed sampleLibs "00ff" 7 = .ok w ∧
      w.path = "m/44'/501'/7'/0'") ∧
    (∃ s1 s2 s3, addWallet sampleLibs (initial "abandon ability") = .ok s1 ∧
      addWallet sampleLibs s1 = .ok s2 ∧ addWallet sampleLibs (clearWallets s2) = .ok s3 ∧
      s1.wallets.map Wallet.path = ["m/44'/501'/0'/0'"] ∧
      s2.wallets.map Wallet.path = ["m/44'/501'/0'/0'", "m/44'/501'/1'/0'"] ∧
      s3.wallets.map Wallet.path = ["m/44'/501'/0'/0'"]) :=
  ⟨⟨_, rfl, (derivation_path sampleLibs).1 "00ff" 7 _ rfl⟩,
   ⟨_, _, _, rfl, rfl, rfl, (derivation_path sampleLibs).2 _ _ _ _ rfl rfl rfl⟩⟩

/-! ## Reveal toggle -/

/-- C3: `toggleReveal(i)` never changes the publicKey, secretKeyBase58, index or
path of any wallet, nor the length or order of the collection, nor the
mnemonic or nextIndex; on a reachable state it negates the revealed flag of
the one wallet whose index is `i` (the wallet at position `i`) and nothing
else; and if no wallet has index `i` the state is unchanged. -/
theorem toggleReveal_frame (s : State) (i : Nat) :
    (toggleReveal s i).mnemonic = s.mnemonic ∧
    (toggleReveal s i).nextIndex = s.nextIndex ∧
    (toggleReveal s i).wallets.length = s.wallets.length ∧
    (toggleReveal s i).wallets.map
        (fun w => (w.index, w.path, w.publicKey, w.secretKeyBase58)) =
      s.wallets.map (fun w => (w.index, w.path, w.publicKey, w.secretKeyBase58)) ∧
    (∀ L, Reachable L s →
      (∀ w, s.wallets[i]? = some w →
        w.index = i ∧
        (toggleReveal s i).wallets = s.wallets.set i { w with revealed := !w.revealed }) ∧
      (∀ j w, j ≠ i → s.wallets[j]? = some w →
        w.index ≠ i ∧ (toggleReveal s i).wallets[j]? = some w)) ∧
    ((∀ w ∈ s.wallets, w.index ≠ i) → toggleReveal s i = s) := by
  refine ⟨rfl, rfl, by simp [toggleReveal], ?_, ?_, toggleReveal_absent s i⟩
  · simp only [toggleReveal, List.map_map]
    apply List.map_congr_left
    intro x _
    by_cases hx : x.index = i <;> simp [hx]
  · intro L hs
    have hinv := inv_of_reachable L s hs
    refine ⟨fun w hw => ⟨inv_index_at s hinv i w hw, ?_⟩, fun j w hji hw => ?_⟩
    · apply List.ext_getElem?
      intro j
      rw [toggleReveal_getElem?, List.getElem?_set]
      by_cases hij : i = j
      · subst hij
        have hlt : i < s.wallets.length := by
          by_contra hc
          rw [List.getElem?_eq_none (Nat.le_of_not_lt hc)] at hw
          cases hw
        simp [hw, hlt, inv_index_at s hinv i w hw]
      · simp only [hij, if_false]
        cases hj : s.wallets[j]? with
        | none => rfl
        | some x =>
          have hx := inv_index_at s hinv j x hj
          have : x.index ≠ i := by rw [hx]; exact fun e => hij e.symm
          simp [this]
    · have hx := inv_index_at s hinv j w hw
      have hne : w.index ≠ i := by rw [hx]; exact hji
      refine ⟨hne, ?_⟩
      rw [toggleReveal_getElem?, hw]
      simp [hne]

theorem toggleReveal_frame_witness :
    Reachable sampleLibs sampleTwo ∧
    (∀ w, sampleTwo.wallets[1]? = some w →
      w.index = 1 ∧
      (toggleReveal sampleTwo 1).wallets
        = sampleTwo.wallets.set 1 { w with revealed := !w.revealed }) ∧
    (∀ w ∈ sampleTwo.wallets, w.index ≠ 5) ∧
    toggleReveal sampleTwo 5 = sampleTwo :=
  ⟨reachable_run _ _ _ (Reachable.init _),
   ((toggleReveal_frame sampleTwo 1).2.2.2.2.1 sampleLibs
      (reachable_run _ _ _ (Reachable.init _))).1,
   by decide,
   (toggleReveal_frame sampleTwo 5).2.2.2.2.2 (by decide)⟩

/-! ## Reveal gating of the private key -/

/-- C4: for a wallet with `revealed = false` the copy-secret action hands
nothing to the clipboard and the rendered private key is the fixed mask, so
two hidden wallets (in particular two that differ only in secretKeyBase58)
give the same copy output and the same rendered text; with `revealed = true`
the action hands over exactly `secretKeyBase58`. -/
theorem copySecret_gated :
    (∀ w : Wallet, w.revealed = false → copySecret w = none ∧ renderPrivateKey w = mask) ∧
    (∀ (w : Wallet) (k : String), w.revealed = false →
      copySecret { w with secretKeyBase58 := k } = copySecret w ∧
      renderPrivateKey { w with secretKeyBase58 := k } = renderPrivateKey w) ∧
    (∀ w1 w2 : Wallet, w1.revealed = false → w2.revealed = false →
      copySecret w1 = copySecret w2 ∧ renderPrivateKey w1 = renderPrivateKey w2) ∧
    (∀ w : Wallet, w.revealed = true → copySecret w = some w.secretKeyBase58) := by
  refine ⟨?_, ?_, ?_, ?_⟩
  · intro w h
    simp [copySecret, renderPrivateKey, h]
  · intro w k h
    simp [copySecret, renderPrivateKey, h]
  · intro w1 w2 h1 h2
    simp [copySecret, renderPrivateKey, h1, h2]
  · intro w h
    simp [copySecret, h]

theorem copySecret_gated_witness :
    (copySecret { path := "m/44'/501'/0'/0'", publicKey := "4vJ9", secretKeyBase58 := "2NEpo7",
                  index := 0, revealed := false } = none ∧
     renderPrivateKey { path := "m/44'/501'/0'/0'", publicKey := "4vJ9",
                        secretKeyBase58 := "2NEpo7", index := 0, revealed := false } = mask) ∧
    copySecret { path := "m/44'/501'/0'/0'", publicKey := "4vJ9", secretKeyBase58 := "2NEpo7",
                 index := 0, revealed := true } = some "2NEpo7" :=
  ⟨copySecret_gated.1 _ rfl, copySecret_gated.2.2.2 _ rfl⟩

/-! ## Failed derivation -/

/-- C5: if hierarchical derivation yields no child private key for the current
index, `deriveSolanaKeypairFromSeed` fails with "No child private key" and
returns no wallet, and `addWallet` is aborted: the wallet list, nextIndex and
mnemonic are what they were before.  The same holds for every other way the
derivation can throw. -/
theorem addWallet_aborts_on_failure (L : Libs) (s : State) :
    (L.hdPrivateKey (seedHex L s.mnemonic) ("m/44'/501'/" ++ Nat.repr s.nextIndex ++ "'/0'")
        = .ok none →
      deriveSolanaKeypairFromSeed L (seedHex L s.mnemonic) s.nextIndex
        = .error "No child private key" ∧
      addWallet L s = .error "No child private key" ∧
      step L s Action.addWallet = s) ∧
    (∀ e, deriveSolanaKeypairFromSeed L (seedHex L s.mnemonic) s.nextIndex = .error e →
      addWallet L s = .error e ∧ step L s Action.addWallet = s) := by
  have h2 : ∀ e, deriveSolanaKeypairFromSeed L (seedHex L s.mnemonic) s.nextIndex = .error e →
      addWallet L s = .error e ∧ step L s Action.addWallet = s := by
    intro e he
    simp [step, addWallet, he, commit]
  refine ⟨fun h => ?_, h2⟩
  have hd : deriveSolanaKeypairFromSeed L (seedHex L s.mnemonic) s.nextIndex
      = .error "No child private key" := by
    have h' : L.hdPrivateKey (seedHex L s.mnemonic)
        ("m/44'/501'/" ++ toString s.nextIndex ++ "'/0'") = .ok none := h
    simp only [deriveSolanaKeypairFromSeed, deriveKeypair, h']
  exact ⟨hd, h2 _ hd⟩

theorem addWallet_aborts_on_failure_witness :
    noKeyLibs.hdPrivateKey (seedHex noKeyLibs "abandon ability") "m/44'/501'/0'/0'" = .ok none ∧
    deriveSolanaKeypairFromSeed noKeyLibs (seedHex noKeyLibs "abandon ability") 0
      = .error "No child private key" ∧
    step noKeyLibs (initial "abandon ability") Action.addWallet = initial "abandon ability" :=
  ⟨rfl, ((addWallet_aborts_on_failure noKeyLibs (initial "abandon ability")).1 rfl).1,
   ((addWallet_aborts_on_failure noKeyLibs (initial "abandon ability")).1 rfl).2.2⟩

/-! ## Determinism -/

/-- C6: the wallet produced by `addWallet` is a function of (mnemonic, nextIndex)
alone.  Two `addWallet` steps taken in states with equal mnemonic and equal
nextIndex, whatever their wallet lists and revealed flags, throw the same
errors, and when one returns so does the other and both append the same
wallet: equal index, path, publicKey and secretKeyBase58.  Across histories:
in every reachable state the wallet at position `j` carries exactly what
`deriveSolanaKeypairFromSeed` gives for the current mnemonic and `j`, so two
reachable states with the same mnemonic hold, position by position, wallets
with identical index, path, publicKey and secretKeyBase58. -/
theorem addWallet_deterministic (L : Libs) :
    (∀ s t : State, s.mnemonic = t.mnemonic → s.nextIndex = t.nextIndex →
      (∀ e, addWallet L s = .error e ↔ addWallet L t = .error e) ∧
      (∀ s', addWallet L s = .ok s' →
        ∃ w t', addWallet L t = .ok t' ∧
          s'.wallets = s.wallets ++ [w] ∧ t'.wallets = t.wallets ++ [w] ∧
          s'.nextIndex = t'.nextIndex ∧ s'.mnemonic = t'.mnemonic ∧
          w.index = s.nextIndex ∧ w.revealed = false ∧
          ∃ d, deriveSolanaKeypairFromSeed L (seedHex L s.mnemonic) s.nextIndex = .ok d ∧
            w.path = d.path ∧ w.publicKey = d.publicKey ∧
            w.secretKeyBase58 = d.secretKeyBase58)) ∧
    (∀ s, Reachable L s → ∀ (j : Nat) (w : Wallet), s.wallets[j]? = some w →
      ∃ d, deriveSolanaKeypairFromSeed L (seedHex L s.mnemonic) j = .ok d ∧
        w.index = j ∧ w.path = d.path ∧ w.publicKey = d.publicKey ∧
        w.secretKeyBase58 = d.secretKeyBase58) ∧
    (∀ s t, Reachable L s → Reachable L t → s.mnemonic = t.mnemonic →
      ∀ (j : Nat) (w1 w2 : Wallet), s.wallets[j]? = some w1 → t.wallets[j]? = some w2 →
        w1.index = w2.index ∧ w1.path = w2.path ∧ w1.publicKey = w2.publicKey ∧
        w1.secretKeyBase58 = w2.secretKeyBase58) := by
  refine ⟨fun s t hm hi => ⟨fun e => ?_, fun s' hs' => ?_⟩,
    fun s hs => keyInv_of_reachable L s hs, ?_⟩
  · simp only [addWallet, ← hm, ← hi]
    cases deriveSolanaKeypairFromSeed L (seedHex L s.mnemonic) s.nextIndex with
    | error e' => simp
    | ok d => simp
  · obtain ⟨d, hd, rfl⟩ := addWallet_ok L s s' hs'
    refine ⟨mkWallet d s.nextIndex,
      { mnemonic := t.mnemonic, wallets := t.wallets ++ [mkWallet d s.nextIndex],
        nextIndex := t.nextIndex + 1 }, ?_, rfl, rfl, ?_, hm, rfl, rfl, d, hd, rfl, rfl, rfl⟩
    · simp only [addWallet, ← hm, ← hi, hd]
    · simp only [hi]
  · intro s t hs ht hm j w1 w2 h1 h2
    obtain ⟨d1, hd1, a1, b1, c1, e1⟩ := keyInv_of_reachable L s hs j w1 h1
    obtain ⟨d2, hd2, a2, b2, c2, e2⟩ := keyInv_of_reachable L t ht j w2 h2
    rw [hm, hd2] at hd1
    cases hd1
    exact ⟨by rw [a1, a2], by rw [b1, b2], by rw [c1, c2], by rw [e1, e2]⟩

theorem addWallet_deterministic_witness :
    (sampleTwo.mnemonic = sampleRevealed.mnemonic ∧
      sampleTwo.nextIndex = sampleRevealed.nextIndex ∧
      sampleTwo.wallets.map Wallet.revealed = [false, false] ∧
      sampleRevealed.wallets.map Wallet.revealed = [false, true] ∧
      ∃ s', addWallet sampleLibs sampleTwo = .ok s' ∧
        ∃ w t', addWallet sampleLibs sampleRevealed = .ok t' ∧
          s'.wallets = sampleTwo.wallets ++ [w] ∧ t'.wallets = sampleRevealed.wallets ++ [w] ∧
          s'.nextIndex = t'.nextIndex ∧ s'.mnemonic = t'.mnemonic ∧
          w.index = sampleTwo.nextIndex ∧ w.revealed = false ∧
          ∃ d, deriveSolanaKeypairFromSeed sampleLibs (seedHex sampleLibs sampleTwo.mnemonic)
              sampleTwo.nextIndex = .ok d ∧
            w.path = d.path ∧ w.publicKey = d.publicKey ∧
            w.secretKeyBase58 = d.secretKeyBase58) ∧
    (Reachable sampleLibs sampleTwo ∧ Reachable sampleLibs sampleOther ∧
      sampleTwo.mnemonic = sampleOther.mnemonic ∧
      sampleTwo.wallets.map Wallet.revealed = [false, false] ∧
      sampleOther.wallets.map Wallet.revealed = [true, false, false] ∧
      ∃ w1 w2, sampleTwo.wallets[0]? = some w1 ∧ sampleOther.wallets[0]? = some w2 ∧
        w1.revealed ≠ w2.revealed ∧
        w1.index = w2.index ∧ w1.path = w2.path ∧ w1.publicKey = w2.publicKey ∧
        w1.secretKeyBase58 = w2.secretKeyBase58) :=
  ⟨⟨rfl, rfl, by decide, by decide, _, rfl,
     ((addWallet_deterministic sampleLibs).1 sampleTwo sampleRevealed rfl rfl).2 _ rfl⟩,
   ⟨reachable_run _ _ _ (Reachable.init _), reachable_run _ _ _ (Reachable.init _), rfl,
     by decide, by decide, _, _, rfl, rfl, by decide,
     (addWallet_deterministic sampleLibs).2.2 sampleTwo sampleOther
       (reachable_run _ _ _ (Reachable.init _)) (reachable_run _ _ _ (Reachable.init _)) rfl
       0 _ _ rfl rfl⟩⟩

/-! ## Clearing and regenerating -/

/-- C7: from every state `clearWallets` yields the empty wallet collection with
the counter at 0 and the same mnemonic; and for every strength the generator
accepts, `regenMnemonic(bits)` yields the empty collection with the counter at
0 and the freshly generated mnemonic. -/
theorem clear_and_regen_reset (L : Libs) (s : State) :
    ((clearWallets s).wallets = [] ∧ (clearWallets s).nextIndex = 0 ∧
      (clearWallets s).mnemonic = s.mnemonic) ∧
    (∀ bits src m, generateMnemonic L.bip39 (bits.getD 128) src = .ok m →
      regenMnemonic L bits src s = .ok { mnemonic := m, wallets := [], nextIndex := 0 } ∧
      step L s (Action.regenMnemonic bits src)
        = { mnemonic := m, wallets := [], nextIndex := 0 }) ∧
    (∀ bits src, effectiveStrength bits % 32 = 0 → 128 ≤ effectiveStrength bits →
      effectiveStrength bits ≤ 256 →
      ∃ m, generateMnemonic L.bip39 (bits.getD 128) src = .ok m ∧
        step L s (Action.regenMnemonic bits src)
          = { mnemonic := m, wallets := [], nextIndex := 0 }) := by
  have h2 : ∀ bits src m, generateMnemonic L.bip39 (bits.getD 128) src = .ok m →
      regenMnemonic L bits src s = .ok { mnemonic := m, wallets := [], nextIndex := 0 } ∧
      step L s (Action.regenMnemonic bits src)
        = { mnemonic := m, wallets := [], nextIndex := 0 } := by
    intro bits src m hg
    simp [step, regenMnemonic, hg, commit]
  refine ⟨⟨rfl, rfl, rfl⟩, h2, ?_⟩
  intro bits src h1 h3 h4
  obtain ⟨m, hm⟩ := (generateMnemonic_ok_iff L.bip39 bits src).2 ⟨h1, h3, h4⟩
  exact ⟨m, hm, (h2 bits src m hm).2⟩

theorem clear_and_regen_reset_witness :
    ∃ m, generateMnemonic sampleLibs.bip39 ((some 256).getD 128) (fun k => 3 * k) = .ok m ∧
      step sampleLibs
        (run sampleLibs (initial "abandon ability") [Action.addWallet, Action.addWallet])
        (Action.regenMnemonic (some 256) (fun k => 3 * k))
        = { mnemonic := m, wallets := [], nextIndex := 0 } :=
  (clear_and_regen_reset sampleLibs
    (run sampleLibs (initial "abandon ability") [Action.addWallet, Action.addWallet])).2.2
    (some 256) (fun k => 3 * k) (by decide) (by decide) (by decide)

/-! ## Strength handling -/

/-- C8 (amended): `regenMnemonic(bits)` checks no strength itself; generation
succeeds exactly for strengths (0 standing for 128) that are multiples of 32
between 128 and 256, so also for 160, 192 and 224; for every other strength
it throws, and whenever it throws the previous mnemonic, wallet list and
index counter are left unchanged. -/
theorem regenMnemonic_strength (L : Libs) (bits : Option Nat) (src : Nat → Nat) (s : State) :
    ((effectiveStrength bits % 32 = 0 ∧ 128 ≤ effectiveStrength bits ∧
        effectiveStrength bits ≤ 256) →
      ∃ m, regenMnemonic L bits src s = .ok { mnemonic := m, wallets := [], nextIndex := 0 }) ∧
    (¬ (effectiveStrength bits % 32 = 0 ∧ 128 ≤ effectiveStrength bits ∧
        effectiveStrength bits ≤ 256) →
      regenMnemonic L bits src s = .error "Invalid entropy" ∧
      step L s (Action.regenMnemonic bits src) = s) ∧
    (∀ e, regenMnemonic L bits src s = .error e →
      step L s (Action.regenMnemonic bits src) = s) := by
  refine ⟨fun h => ?_, fun h => ?_, fun e he => ?_⟩
  · obtain ⟨m, hm⟩ := (generateMnemonic_ok_iff L.bip39 bits src).2 h
    exact ⟨m, by simp [regenMnemonic, hm]⟩
  · have hg := generateMnemonic_error L.bip39 bits src h
    simp [step, regenMnemonic, hg, commit]
  · simp [step, he, commit]

theorem regenMnemonic_strength_witness :
    (∃ m, regenMnemonic sampleLibs (some 192) (fun k => k) sampleCleared
      = .ok { mnemonic := m, wallets := [], nextIndex := 0 }) ∧
    (regenMnemonic sampleLibs (some 100) (fun k => k) sampleCleared = .error "Invalid entropy" ∧
      step sampleLibs sampleCleared (Action.regenMnemonic (some 100) (fun k => k))
        = sampleCleared) :=
  ⟨(regenMnemonic_strength sampleLibs (some 192) (fun k => k) sampleCleared).1 (by decide),
   (regenMnemonic_strength sampleLibs (some 100) (fun k => k) sampleCleared).2.1 (by decide)⟩

/-- C8 (as stated, refuted): 160 is outside the set 128, 256, yet
`regenMnemonic(160)` produces a mnemonic (of 15 words) and installs it. -/
theorem regenMnemonic_accepts_160 :
    regenMnemonic sampleLibs (some 160) (fun _ => 0) sampleFresh
      = .ok { mnemonic := "abandon abandon abandon abandon abandon abandon abandon abandon abandon abandon abandon abandon abandon abandon abandon"
              wallets := []
              nextIndex := 0 } ∧
    (step sampleLibs sampleFresh (Action.regenMnemonic (some 160) (fun _ => 0))).mnemonic
      ≠ sampleFresh.mnemonic := by
  refine ⟨by set_option maxRecDepth 100000 in rfl, ?_⟩
  have h : step sampleLibs sampleFresh (Action.regenMnemonic (some 160) (fun _ => 0))
      = { mnemonic := "abandon abandon abandon abandon abandon abandon abandon abandon abandon abandon abandon abandon abandon abandon abandon"
          wallets := []
          nextIndex := 0 } := by set_option maxRecDepth 100000 in rfl
  rw [h]
  decide

/-! ## Word count -/

/-- C10: with the English word list (no word contains a space) the generated
mnemonic has `strengthBits / 32 * 3` space-separated words: the initial
mnemonic and the one set by `regenMnemonic(128)` (or by `regenMnemonic()`)
have exactly 12 words, and the one set by `regenMnemonic(256)` has exactly
24 words. -/
theorem mnemonic_word_count (L : Libs)
    (hsha : ∀ e, (L.bip39.sha256 e).length = 32)
    (hsp : ∀ w ∈ L.bip39.wordlist, ' ' ∉ w.toList)
    (hen : L.bip39.wordlist.getD 0 "" ≠ "あいこくしん") :
    (∀ src, ∃ s, mount L src = .ok s ∧ (mnemonicWords s).length = 12) ∧
    (∀ src s, ∃ s', regenMnemonic L (some 128) src s = .ok s' ∧
      (mnemonicWords s').length = 12) ∧
    (∀ src s, ∃ s', regenMnemonic L none src s = .ok s' ∧ (mnemonicWords s').length = 12) ∧
    (∀ src s, ∃ s', regenMnemonic L (some 256) src s = .ok s' ∧
      (mnemonicWords s').length = 24) ∧
    (∀ n src s, n % 32 = 0 → 128 ≤ n → n ≤ 256 →
      ∃ s', regenMnemonic L (some n) src s = .ok s' ∧ (mnemonicWords s').length = n / 32 * 3) := by
  have key : ∀ n src (s : State), n % 32 = 0 → 128 ≤ n → n ≤ 256 →
      ∃ s', regenMnemonic L (some n) src s = .ok s' ∧
        (mnemonicWords s').length = n / 32 * 3 := by
    intro n src s h32 hlo hhi
    obtain ⟨m, hm, hw⟩ := generateMnemonic_words L.bip39 n src hsha hsp hen h32 hlo hhi
    refine ⟨{ mnemonic := m, wallets := [], nextIndex := 0 }, ?_, hw⟩
    simp [regenMnemonic, hm]
  refine ⟨fun src => ?_, fun src s => key 128 src s (by decide) (by decide) (by decide),
    fun src s => key 128 src s (by decide) (by decide) (by decide),
    fun src s => key 256 src s (by decide) (by decide) (by decide), key⟩
  obtain ⟨m, hm, hw⟩ := generateMnemonic_words L.bip39 128 src hsha hsp hen
    (by decide) (by decide) (by decide)
  refine ⟨initial m, ?_, hw⟩
  simp [mount, hm]

theorem mnemonic_word_count_witness :
    (∀ e, (sampleLibs.bip39.sha256 e).length = 32) ∧
    (∀ w ∈ sampleLibs.bip39.wordlist, ' ' ∉ w.toList) ∧
    sampleLibs.bip39.wordlist.getD 0 "" ≠ "あいこくしん" ∧
    (∃ s, mount sampleLibs (fun k => 5 * k + 1) = .ok s ∧ (mnemonicWords s).length = 12) ∧
    (∃ s', regenMnemonic sampleLibs (some 256) (fun k => 5 * k + 1) sampleCleared = .ok s' ∧
      (mnemonicWords s').length = 24) :=
  ⟨fun _ => rfl, by decide, by decide,
   (mnemonic_word_count sampleLibs (fun _ => rfl) (by decide) (by decide)).1 _,
   (mnemonic_word_count sampleLibs (fun _ => rfl) (by decide) (by decide)).2.2.2.1 _ _⟩

/-! ## Base-58 round trip -/

/-- C9: base-58 decoding inverts base-58 encoding on every byte array, of any
length and with any number of leading zero bytes; so for every key pair
`deriveSolanaKeypairFromSeed` produces, decoding the returned secretKeyBase58
gives back the secret-key bytes exactly, and decoding the returned publicKey
string gives back the public-key bytes. -/
theorem bs58_roundtrip_keys (L : Libs) :
    (∀ bytes : List Nat, (∀ b ∈ bytes, b < 256) →
      bs58decode (bs58encode bytes) = some bytes) ∧
    (∀ seed i w, deriveSolanaKeypairFromSeed L seed i = .ok w →
      ∃ p k, deriveKeypair L seed i = .ok (p, k) ∧
        w.secretKeyBase58 = bs58encode (secretKeyBytes k) ∧
        w.publicKey = bs58encode (publicKeyBytes k) ∧
        bs58decode w.secretKeyBase58 = some (secretKeyBytes k) ∧
        bs58decode w.publicKey = some (publicKeyBytes k)) := by
  refine ⟨bs58_decode_encode, ?_⟩
  intro seed i w h
  obtain ⟨p, k, hk, rfl⟩ := derive_ok L seed i w h
  exact ⟨p, k, hk, rfl, rfl,
    bs58_decode_encode _ (uint8Array_lt k.secretKey),
    bs58_decode_encode _ (uint8Array_lt k.publicKey)⟩

theorem bs58_roundtrip_keys_witness :
    (∀ b ∈ [0, 0, 1, 2, 255], b < 256) ∧
    bs58decode (bs58encode [0, 0, 1, 2, 255]) = some [0, 0, 1, 2, 255] ∧
    (∃ w, deriveSolanaKeypairFromSeed sampleLibs "00ff" 3 = .ok w ∧
      ∃ p k, deriveKeypair sampleLibs "00ff" 3 = .ok (p, k) ∧
        w.secretKeyBase58 = bs58encode (secretKeyBytes k) ∧
        w.publicKey = bs58encode (publicKeyBytes k) ∧
        bs58decode w.secretKeyBase58 = some (secretKeyBytes k) ∧
        bs58decode w.publicKey = some (publicKeyBytes k)) :=
  ⟨by decide, (bs58_roundtrip_keys sampleLibs).1 [0, 0, 1, 2, 255] (by decide),
   ⟨_, rfl, (bs58_roundtrip_keys sampleLibs).2 "00ff" 3 _ rfl⟩⟩
end Kosh
